import Mathlib

/-!
Verification of the NVRAM partition engine of `src/nvram.c` (powerpc-utils):
partition-header checksum, directory parsing, partition lookup, the
name=value update path, the VPD decoder and the error-log decoder,
shallowly embedded over byte sequences (`List ℕ`, one entry per byte).
All multi-byte arithmetic follows the code; C bit operations on
non-negative values are written with `%`, `/` and `*` (`x & 0xffff` is
`x % 65536`, `x >> 16` is `x / 65536`, `x << 8` is `x * 256`).
-/

namespace Nvram

/-- Read the byte at index `i` of a buffer; an out-of-range read yields 0.
This mirrors the C code's reliance on NUL terminators when it walks
`char *` data: wherever a theorem depends on it, the terminator is inside
the modelled region. -/
def cByte (l : List ℕ) (i : ℕ) : ℕ := l.getD i 0

/-- C `strlen` of the string starting at index `o` of `data`. -/
def strlenAt (data : List ℕ) (o : ℕ) : ℕ :=
  ((data.drop o).takeWhile (fun b => b != 0)).length

/-- C `strncmp(a + ai, b + bi, n) == 0`: compare byte by byte, stopping at
the first difference, at a common NUL, or after `n` bytes. -/
def strncmpAtEq (a b : List ℕ) : ℕ → ℕ → ℕ → Bool
  | _, _, 0 => true
  | ai, bi, n + 1 =>
    if cByte a ai ≠ cByte b bi then false
    else if cByte a ai = 0 then true
    else strncmpAtEq a b (ai + 1) (bi + 1) n

/-- Modelled from the spec (§3): `struct partition_header` is declared in
`nvram.h`, which is not under `src/`.  A 16-byte header: 1-byte signature,
1-byte checksum, 2-byte big-endian length counted in 16-byte blocks, and a
12-byte name (padded, not guaranteed NUL-terminated). -/
structure PHeader where
  signature : ℕ
  chksum : ℕ
  plen : ℕ
  name : List ℕ
  deriving DecidableEq

/-- Decode a 16-byte partition header at byte offset `off` of `buf`. -/
def readHeader (buf : List ℕ) (off : ℕ) : PHeader :=
  { signature := cByte buf off
    chksum := cByte buf (off + 1)
    plen := cByte buf (off + 2) * 256 + cByte buf (off + 3)
    name := (List.range 12).map (fun j => cByte buf (off + 4 + j)) }

/-- Serialize a partition header to its 16-byte wire form. -/
def encodeHeader (h : PHeader) : List ℕ :=
  [h.signature, h.chksum, h.plen / 256, h.plen % 256] ++ h.name

/-- The sum of the six 16-bit words of the 12-byte name field, as read by
`checksum` through an `unsigned short *` on the big-endian host. -/
def nameWordSum (name : List ℕ) : ℕ :=
  (cByte name 0 * 256 + cByte name 1) + (cByte name 2 * 256 + cByte name 3) +
  (cByte name 4 * 256 + cByte name 5) + (cByte name 6 * 256 + cByte name 7) +
  (cByte name 8 * 256 + cByte name 9) + (cByte name 10 * 256 + cByte name 11)

/-- The function `checksum` of nvram.c (lines 438-455): sum signature, length and the six
name words; fold bits above position 16 back once; then fold the resulting
16-bit value down to one byte. -/
def hdrChecksum (h : PHeader) : ℕ :=
  let s := h.signature + h.plen + nameWordSum h.name
  let s1 := (s % 65536 + s / 65536) % 65536
  let s2 := s1 / 256 + s1 * 256
  ((s1 + s2) / 256) % 256

/-- The 16-bit value obtained after the first fold of `checksum`. -/
def hdrFold16 (h : PHeader) : ℕ :=
  let s := h.signature + h.plen + nameWordSum h.name
  (s % 65536 + s / 65536) % 65536

/-- The spec's wording of the final step of `checksum`: fold the 16-bit
value's high byte and low byte together (with end-around carry) and mask to
one byte. -/
def foldHiLo (s1 : ℕ) : ℕ :=
  (s1 / 256 + s1 % 256 + (s1 / 256 + s1 % 256) / 256) % 256

/-- The loop of `nvram_parse_partitions` (nvram.c lines 606-632) with explicit fuel.
The C `while` loop reads a 16-byte header, records a WARNING diagnostic
when the stored checksum mismatches the computed one, appends the entry,
and advances by `header.length * 16` bytes; there is no guard against
`length == 0`.  `none` means the fuel ran out, i.e. the loop performed at
least `fuel` iterations without terminating.  On success the result is the
entry table (offset, header) together with the offsets that drew a
checksum warning. -/
def parseParts (buf : List ℕ) (nbytes : ℕ) : ℕ → ℕ → Option (List (ℕ × PHeader) × List ℕ)
  | 0, _ => none
  | fuel + 1, off =>
    if off < nbytes then
      match parseParts buf nbytes fuel (off + (readHeader buf off).plen * 16) with
      | some (tbl, warns) =>
          some ((off, readHeader buf off) :: tbl,
            (if hdrChecksum (readHeader buf off) ≠ (readHeader buf off).chksum
             then [off] else []) ++ warns)
      | none => none
    else some ([], [])

/-- A 16-byte buffer holding a single header whose length field is 0. -/
def zeroLenBuf : List ℕ :=
  encodeHeader { signature := 0x70, chksum := 0, plen := 0, name := List.replicate 12 0 }

/-- The reference header of spec §8: signature 0x70, length 1, all-zero name. -/
def refHeader : PHeader :=
  { signature := 0x70, chksum := 0, plen := 1, name := List.replicate 12 0 }

/-- The last two lines of `checksum` compute exactly the high/low byte fold
with end-around carry, for any 16-bit input. -/
theorem second_fold_eq_foldHiLo (t : ℕ) (ht : t < 65536) :
    ((t + (t / 256 + t * 256)) / 256) % 256 = foldHiLo t := by
  unfold foldHiLo
  have key : t + (t / 256 + t * 256) = 256 * (257 * (t / 256) + t % 256) + (t / 256 + t % 256) := by
    omega
  rw [key, Nat.mul_add_div (by norm_num)]
  omega

/-- C4: `checksum` is total with no error path and always yields one byte;
it equals the documented fold (fold the sum above bit 16 back once, then
fold the high and low byte together and mask to one byte); and on the
reference header (signature 0x70, length 1, all-zero name) it returns the
independently computed value 0x71 (sum 0x71; both folds leave it fixed). -/
theorem checksum_total_fold_and_reference :
    (∀ h : PHeader, hdrChecksum h < 256 ∧ hdrChecksum h = foldHiLo (hdrFold16 h)) ∧
    hdrChecksum refHeader = 0x71 := by
  constructor
  · intro h
    have h1 : hdrChecksum h = ((hdrFold16 h + (hdrFold16 h / 256 + hdrFold16 h * 256)) / 256) % 256 :=
      rfl
    have h2 : hdrFold16 h < 65536 := Nat.mod_lt _ (by norm_num)
    rw [h1, second_fold_eq_foldHiLo _ h2]
    exact ⟨Nat.mod_lt _ (by norm_num), rfl⟩
  · decide

/-- C1: on a buffer holding one partition header whose length field is 0,
`nvram_parse_partitions` never advances `p_start` and never terminates:
for every fuel bound the loop is still running. -/
theorem parse_zero_length_never_terminates :
    ∀ fuel, parseParts zeroLenBuf 16 fuel 0 = none := by
  intro fuel
  induction fuel with
  | zero => rfl
  | succ n ih =>
    rw [parseParts]
    simp only [show (0:ℕ) < 16 by decide, if_true]
    have hh : (readHeader zeroLenBuf 0).plen * 16 = 0 := by decide
    rw [hh, ih]

/-- Reading an appended buffer past a prefix is reading the suffix. -/
theorem cByte_append_right (pre l : List ℕ) (i : ℕ) :
    cByte (pre ++ l) (pre.length + i) = cByte l i := by
  unfold cByte
  rw [List.getD_append_right _ _ _ _ (Nat.le_add_right _ _)]
  simp

/-- Rebuilding a list from its `getD` reads gives the list back. -/
theorem range_map_getD (l : List ℕ) :
    (List.range l.length).map (fun j => l.getD j 0) = l := by
  apply List.ext_getElem
  · simp
  · intro i h1 h2
    simp only [List.getElem_map, List.getElem_range]
    exact List.getD_eq_getElem l 0 h2

/-- Decoding a 16-byte encoded header placed after an arbitrary prefix
recovers the header. -/
theorem readHeader_append (pre rest : List ℕ) (h : PHeader) (hn12 : h.name.length = 12) :
    readHeader (pre ++ (encodeHeader h ++ rest)) pre.length = h := by
  have hb : ∀ i, cByte (pre ++ (encodeHeader h ++ rest)) (pre.length + i)
      = cByte (encodeHeader h ++ rest) i := fun i => cByte_append_right pre _ i
  have hname : ∀ j, j < 12 → cByte (encodeHeader h ++ rest) (4 + j) = h.name.getD j 0 := by
    intro j hj
    unfold encodeHeader cByte
    have : ([h.signature, h.chksum, h.plen / 256, h.plen % 256] ++ h.name) ++ rest
        = [h.signature, h.chksum, h.plen / 256, h.plen % 256] ++ (h.name ++ rest) := by
      simp
    rw [this, List.getD_append_right _ _ _ _ (by simp)]
    simp only [List.length_cons, List.length_nil]
    rw [show 4 + j - 4 = j by omega, List.getD_append _ _ _ _ (by omega)]
  cases h with
  | mk sg ck pl nm =>
    simp only at hn12 hname
    simp only [readHeader, PHeader.mk.injEq]
    refine ⟨?_, ?_, ?_, ?_⟩
    · have := hb 0
      rw [Nat.add_zero] at this
      rw [this]
      rfl
    · rw [hb 1]
      rfl
    · rw [hb 2, hb 3]
      have e2 : cByte (encodeHeader ⟨sg, ck, pl, nm⟩ ++ rest) 2 = pl / 256 := rfl
      have e3 : cByte (encodeHeader ⟨sg, ck, pl, nm⟩ ++ rest) 3 = pl % 256 := rfl
      rw [e2, e3]
      omega
    · have hm : ∀ j ∈ List.range 12,
          cByte (pre ++ (encodeHeader ⟨sg, ck, pl, nm⟩ ++ rest)) (pre.length + 4 + j)
            = nm.getD j 0 := by
        intro j hj
        rw [Nat.add_assoc, hb (4 + j)]
        exact hname j (List.mem_range.mp hj)
      rw [List.map_congr_left hm, ← hn12, range_map_getD]

/-- Byte sequence synthesized from a list of partitions: each contributes its
16-byte header followed by its payload. -/
def buildBuf : List (PHeader × List ℕ) → List ℕ
  | [] => []
  | (h, pl) :: rest => (encodeHeader h ++ pl) ++ buildBuf rest

/-- The directory entries the parser should produce: each header at its byte
offset, offsets advancing by `length * 16`. -/
def expectedEntries : List (PHeader × List ℕ) → ℕ → List (ℕ × PHeader)
  | [], _ => []
  | (h, _) :: rest, off => (off, h) :: expectedEntries rest (off + h.plen * 16)

/-- The offsets at which the parser should emit a checksum WARNING: exactly
the headers whose stored checksum differs from the computed one. -/
def expectedWarns : List (PHeader × List ℕ) → ℕ → List ℕ
  | [], _ => []
  | (h, _) :: rest, off =>
    (if hdrChecksum h ≠ h.chksum then [off] else []) ++ expectedWarns rest (off + h.plen * 16)

/-- Well-formed synthesized partitions: length field at least 1, 12-byte
name, and a payload that pads the partition to exactly `length * 16` bytes. -/
def partsWF (ps : List (PHeader × List ℕ)) : Prop :=
  ∀ p ∈ ps, 1 ≤ p.1.plen ∧ p.1.name.length = 12 ∧ p.2.length = p.1.plen * 16 - 16

/-- Parsing a synthesized buffer appended after an arbitrary prefix yields
exactly the synthesized entries, whatever each header's stored checksum is. -/
theorem parseParts_append :
    ∀ ps : List (PHeader × List ℕ), partsWF ps →
      ∀ (pre : List ℕ) (fuel : ℕ), ps.length < fuel →
        parseParts (pre ++ buildBuf ps) (pre.length + (buildBuf ps).length) fuel pre.length
          = some (expectedEntries ps pre.length, expectedWarns ps pre.length) := by
  intro ps
  induction ps with
  | nil =>
    intro _ pre fuel hf
    match fuel, hf with
    | f + 1, _ =>
      rw [parseParts]
      simp [buildBuf, expectedEntries, expectedWarns]
  | cons hd tl ih =>
    intro hwf pre fuel hf
    obtain ⟨h, pl⟩ := hd
    obtain ⟨hp1a, hn12a, hplena⟩ := hwf (h, pl) (List.mem_cons_self _ _)
    have hp1 : 1 ≤ h.plen := hp1a
    have hn12 : h.name.length = 12 := hn12a
    have hplen : pl.length = h.plen * 16 - 16 := hplena
    have hwt : partsWF tl := fun p hp => hwf p (List.mem_cons_of_mem _ hp)
    match fuel, hf with
    | f + 1, hf =>
      have hf2 : tl.length < f := by
        simpa using hf
      have hlen16 : (encodeHeader h).length = 16 := by simp [encodeHeader, hn12]
      have hbb : buildBuf ((h, pl) :: tl) = encodeHeader h ++ (pl ++ buildBuf tl) := by
        simp [buildBuf]
      have hrd : readHeader (pre ++ buildBuf ((h, pl) :: tl)) pre.length = h := by
        rw [hbb]
        exact readHeader_append pre (pl ++ buildBuf tl) h hn12
      have hpre2 : (pre ++ (encodeHeader h ++ pl)).length = pre.length + h.plen * 16 := by
        simp only [List.length_append, hlen16]
        omega
      have hbuf : pre ++ buildBuf ((h, pl) :: tl)
          = (pre ++ (encodeHeader h ++ pl)) ++ buildBuf tl := by
        rw [hbb]
        simp
      have hnb : pre.length + (buildBuf ((h, pl) :: tl)).length
          = (pre ++ (encodeHeader h ++ pl)).length + (buildBuf tl).length := by
        rw [hbb]
        simp only [List.length_append, hlen16]
        omega
      have hih := ih hwt (pre ++ (encodeHeader h ++ pl)) f hf2
      rw [parseParts, if_pos (by rw [hbb]; simp only [List.length_append, hlen16]; omega), hrd]
      rw [show pre.length + h.plen * 16 = (pre ++ (encodeHeader h ++ pl)).length from hpre2.symm]
      rw [hbuf, hnb, hih]
      simp only [expectedEntries, expectedWarns, hpre2]

/-- C7: parsing a buffer synthesized from N partitions whose headers each
have length at least 1 and exactly cover the buffer yields exactly those N
entries in offset order, for every choice of the stored checksum bytes; the
WARNING diagnostics are exactly the offsets of headers whose stored
checksum is wrong, and they never remove entries. -/
theorem parse_recovers_all_partitions (ps : List (PHeader × List ℕ)) (hwf : partsWF ps)
    (fuel : ℕ) (hfuel : ps.length < fuel) :
    parseParts (buildBuf ps) (buildBuf ps).length fuel 0
      = some (expectedEntries ps 0, expectedWarns ps 0) := by
  have hmain := parseParts_append ps hwf [] fuel hfuel
  simpa using hmain

/-- A 12-byte name field holding "common" padded with NULs. -/
def common12 : List ℕ := [99, 111, 109, 109, 111, 110, 0, 0, 0, 0, 0, 0]

/-- Two one-block partitions; the second stores a wrong checksum byte. -/
def demoParts7 : List (PHeader × List ℕ) :=
  [({ signature := 0x70, chksum := 0x71, plen := 1, name := List.replicate 12 0 }, []),
   ({ signature := 0x70, chksum := 0x13, plen := 1, name := common12 }, [])]

/-- Witness for C7: a concrete two-partition buffer, one checksum wrong,
parses to both entries in order with one warning. -/
theorem parse_recovers_all_partitions_witness :
    (partsWF demoParts7 ∧ demoParts7.length < 3) ∧
    parseParts (buildBuf demoParts7) (buildBuf demoParts7).length 3 0
      = some (expectedEntries demoParts7 0, expectedWarns demoParts7 0) := by
  refine ⟨⟨?_, by decide⟩, parse_recovers_all_partitions demoParts7 ?_ 3 (by decide)⟩ <;>
    · unfold partsWF
      decide

/-- The match test of `nvram_find_partition` (nvram.c lines 731-738):
signature 0 and a missing name are wildcards; the name is compared with
`strncmp` bounded to the 12-byte field width. -/
def partMatch (sig : ℕ) (name : Option (List ℕ)) (ph : PHeader) : Bool :=
  (sig == 0 || sig == ph.signature) &&
    (match name with
     | none => true
     | some s => strncmpAtEq s ph.name 0 0 12)

/-- The search loop of `nvram_find_partition`, walking the table from
index `i` upward and returning the index of the first match. -/
def findPartAux (sig : ℕ) (name : Option (List ℕ)) : List PHeader → ℕ → Option ℕ
  | [], _ => none
  | ph :: rest, i => if partMatch sig name ph then some i else findPartAux sig name rest (i + 1)

/-- The function `nvram_find_partition` (nvram.c lines 708-743).  `start = some j`
resumes the search at the entry immediately after table index `j` (the C
code locates the `start` pointer in the table and continues at the next
slot); `start = none` searches from index 0. -/
def findPartIdx (parts : List PHeader) (sig : ℕ) (name : Option (List ℕ))
    (start : Option ℕ) : Option ℕ :=
  findPartAux sig name (parts.drop (match start with | none => 0 | some j => j + 1))
    (match start with | none => 0 | some j => j + 1)

/-- Reading a replicate of zeros with `getD` yields zero at every index. -/
theorem getD_replicate_zero (r i : ℕ) : (List.replicate r (0 : ℕ)).getD i 0 = 0 := by
  induction r generalizing i with
  | zero => rfl
  | succ n ih =>
    cases i with
    | zero => rfl
    | succ j => simpa [List.replicate] using ih j

/-- If the compared byte ranges agree, `strncmp` reports equality. -/
theorem strncmpAtEq_of_eq (a b : List ℕ) :
    ∀ (n ai bi : ℕ), (∀ j, j < n → cByte a (ai + j) = cByte b (bi + j)) →
      strncmpAtEq a b ai bi n = true := by
  intro n
  induction n with
  | zero =>
    intro ai bi _
    rfl
  | succ m ih =>
    intro ai bi heq
    have h0 : cByte a ai = cByte b bi := by
      have := heq 0 (Nat.succ_pos m)
      simpa using this
    rw [strncmpAtEq, if_neg (by simp [h0])]
    by_cases hz : cByte a ai = 0
    · rw [if_pos hz]
    · rw [if_neg hz]
      apply ih
      intro j hj
      have := heq (j + 1) (by omega)
      have e1 : ai + (j + 1) = ai + 1 + j := by omega
      have e2 : bi + (j + 1) = bi + 1 + j := by omega
      rwa [e1, e2] at this

/-- A name shorter than the 12-byte field agrees byte-for-byte with its
NUL-padded field. -/
theorem pad_bytes_agree (s : List ℕ) (hs : s.length ≤ 12) :
    ∀ j, j < 12 → cByte s j = cByte (s ++ List.replicate (12 - s.length) 0) j := by
  intro j hj
  unfold cByte
  by_cases hlt : j < s.length
  · rw [List.getD_append _ _ _ _ hlt]
  · rw [List.getD_eq_default _ _ (by omega), List.getD_append_right _ _ _ _ (by omega),
      getD_replicate_zero]

/-- The demo table for C8: two partitions named "common" (indices 0 and 2,
with different signatures) separated by a differently-named one. -/
def demoParts8 : List PHeader :=
  [{ signature := 0x70, chksum := 0, plen := 1, name := common12 },
   { signature := 0x70, chksum := 0, plen := 1, name := [115, 121, 115, 116, 101, 109, 0, 0, 0, 0, 0, 0] },
   { signature := 0x7f, chksum := 0, plen := 1, name := common12 }]

/-- The search name "common", and a 12-byte field "commonX" that must not
match it (the candidate matches only up to its own length plus padding). -/
def common6 : List ℕ := [99, 111, 109, 109, 111, 110]

/-- A 12-byte name field holding "commonX": same 6-byte head, then a
non-padding byte. -/
def commonX12 : List ℕ := [99, 111, 109, 109, 111, 110, 88, 0, 0, 0, 0, 0]

/-- C8: in `nvram_find_partition`, signature 0 and a null name are
wildcards (with both wild, the search returns the very next entry, from
index 0 without `resumeAfter` and from `j + 1` when resuming after `j`);
name comparison is bounded to the 12-byte field and a shorter name matches
its NUL-padded field (but not a field that continues with a non-pad byte);
and with two partitions named "common", resuming after the first hit
returns the second and resuming after the second returns none. -/
theorem find_partition_wildcards_and_resume (parts : List PHeader) (j : ℕ)
    (hj : j + 1 < parts.length) (s : List ℕ) (hs : s.length ≤ 12) :
    findPartIdx parts 0 none none = some 0 ∧
    findPartIdx parts 0 none (some j) = some (j + 1) ∧
    strncmpAtEq s (s ++ List.replicate (12 - s.length) 0) 0 0 12 = true ∧
    strncmpAtEq common6 commonX12 0 0 12 = false ∧
    findPartIdx demoParts8 0 (some common6) none = some 0 ∧
    findPartIdx demoParts8 0 (some common6) (some 0) = some 2 ∧
    findPartIdx demoParts8 0 (some common6) (some 2) = none := by
  refine ⟨?_, ?_, ?_, by decide, by decide, by decide, by decide⟩
  · match parts, hj with
    | ph :: rest, _ =>
      unfold findPartIdx
      rw [List.drop_zero, findPartAux, if_pos (by simp [partMatch])]
  · unfold findPartIdx
    rw [List.drop_eq_getElem_cons hj, findPartAux, if_pos (by simp [partMatch])]
  · exact strncmpAtEq_of_eq s _ 12 0 0 (fun k hk => by
      have := pad_bytes_agree s hs k hk
      simpa using this)

/-- Witness for C8 at the demo table, resuming after index 0, with the
6-byte name "common". -/
theorem find_partition_wildcards_and_resume_witness :
    (0 + 1 < demoParts8.length ∧ common6.length ≤ 12) ∧
    (findPartIdx demoParts8 0 none none = some 0 ∧
     findPartIdx demoParts8 0 none (some 0) = some (0 + 1) ∧
     strncmpAtEq common6 (common6 ++ List.replicate (12 - common6.length) 0) 0 0 12 = true ∧
     strncmpAtEq common6 commonX12 0 0 12 = false ∧
     findPartIdx demoParts8 0 (some common6) none = some 0 ∧
     findPartIdx demoParts8 0 (some common6) (some 0) = some 2 ∧
     findPartIdx demoParts8 0 (some common6) (some 2) = none) :=
  ⟨⟨by decide, by decide⟩,
    find_partition_wildcards_and_resume demoParts8 0 (by decide) common6 (by decide)⟩

/-- Result of a VPD decoding run: `ok = false` means the fuel bound was hit
while a loop was still running; `lines` are the emitted output lines (the
identification string and each printed field); `maxRead` is the largest
buffer index passed to a read during the run (every `*p` access of the C
code is recorded, including loop-condition tests). -/
structure VpdRes where
  ok : Bool
  lines : List (List ℕ)
  endPos : ℕ
  maxRead : ℕ
  deriving DecidableEq

/-- The function `getvalue` (nvram.c lines 775-783): a two-byte little-endian-in-memory
length (`len = *p++; len |= (*p++) << 8`) followed by `len` value bytes.
Returns (value, next position, largest index read). -/
def vpdGetValue (buf : ℕ → ℕ) (p : ℕ) : List ℕ × ℕ × ℕ :=
  ((List.range (buf p + buf (p + 1) * 256)).map (fun j => buf (p + 2 + j)),
    p + 2 + (buf p + buf (p + 1) * 256),
    p + 1 + (buf p + buf (p + 1) * 256))

/-- The field loop of `dump_vpd` (lines 890-891) with `printVPDfield`
(lines 834-850): while `p < vpd_endp`, read a 2-byte key, a 1-byte length
and the value (`getsmallvalue`); a field is printed when the key is in the
static dictionary, or always under `show_all`.  The dictionary `descs`
lives in `nvram.h` (not under src/); modelled from the spec as an abstract
key predicate. -/
def vpdFields (buf : ℕ → ℕ) (isKnown : ℕ → ℕ → Bool) (showAll : Bool) (endp : ℕ)
    (p : ℕ) : List (List ℕ) × ℕ × ℕ :=
  if hp : p < endp then
    (((if isKnown (buf p) (buf (p + 1)) || showAll
       then [[buf p, buf (p + 1)] ++ (List.range (buf (p + 2))).map (fun j => buf (p + 3 + j))]
       else []) ++
        (vpdFields buf isKnown showAll endp (p + 3 + buf (p + 2))).1),
      (vpdFields buf isKnown showAll endp (p + 3 + buf (p + 2))).2.1,
      max (p + 2 + buf (p + 2)) (vpdFields buf isKnown showAll endp (p + 3 + buf (p + 2))).2.2)
  else ([], p, 0)
termination_by endp - p
decreasing_by
  all_goals omega

/-- The keyword-block loop of `dump_vpd` (lines 883-892): loop until the
end tag 0x79, reading a 2-byte block length and decoding the block's
fields.  Fuel-indexed because nothing bounds the scan if no end tag
occurs. -/
def vpdInner (buf : ℕ → ℕ) (isKnown : ℕ → ℕ → Bool) (showAll : Bool) : ℕ → ℕ → VpdRes
  | 0, p => { ok := false, lines := [], endPos := p, maxRead := 0 }
  | fuel + 1, p =>
    if buf p = 0x79 then { ok := true, lines := [], endPos := p, maxRead := p }
    else
      { ok := (vpdInner buf isKnown showAll fuel
          (vpdFields buf isKnown showAll (p + 3 + (buf (p + 1) + buf (p + 2) * 256)) (p + 3)).2.1).ok
        lines := (vpdFields buf isKnown showAll (p + 3 + (buf (p + 1) + buf (p + 2) * 256)) (p + 3)).1 ++
          (vpdInner buf isKnown showAll fuel
            (vpdFields buf isKnown showAll (p + 3 + (buf (p + 1) + buf (p + 2) * 256)) (p + 3)).2.1).lines
        endPos := (vpdInner buf isKnown showAll fuel
          (vpdFields buf isKnown showAll (p + 3 + (buf (p + 1) + buf (p + 2) * 256)) (p + 3)).2.1).endPos
        maxRead := max (p + 2)
          (max (vpdFields buf isKnown showAll (p + 3 + (buf (p + 1) + buf (p + 2) * 256)) (p + 3)).2.2
            (vpdInner buf isKnown showAll fuel
              (vpdFields buf isKnown showAll (p + 3 + (buf (p + 1) + buf (p + 2) * 256)) (p + 3)).2.1).maxRead) }

/-- The outer loop of `dump_vpd` (nvram.c lines 877-901): the condition
`*p && p < p_end` reads `*p` first; tag 0x82 starts an identification
string followed by keyword blocks and then skips the end tag and the
checksum byte; byte 0 ends decoding; any other byte leaves `p` unchanged,
so the loop repeats with the same state. -/
def vpdOuter (buf : ℕ → ℕ) (isKnown : ℕ → ℕ → Bool) (showAll : Bool) (pend : ℕ) :
    ℕ → ℕ → VpdRes
  | 0, p => { ok := false, lines := [], endPos := p, maxRead := 0 }
  | fuel + 1, p =>
    if buf p ≠ 0 ∧ p < pend then
      if buf p = 0x82 then
        if (vpdInner buf isKnown showAll fuel (vpdGetValue buf (p + 1)).2.1).ok then
          { ok := (vpdOuter buf isKnown showAll pend fuel
              ((vpdInner buf isKnown showAll fuel (vpdGetValue buf (p + 1)).2.1).endPos + 2)).ok
            lines := (vpdGetValue buf (p + 1)).1 ::
              ((vpdInner buf isKnown showAll fuel (vpdGetValue buf (p + 1)).2.1).lines ++
                (vpdOuter buf isKnown showAll pend fuel
                  ((vpdInner buf isKnown showAll fuel (vpdGetValue buf (p + 1)).2.1).endPos + 2)).lines)
            endPos := (vpdOuter buf isKnown showAll pend fuel
              ((vpdInner buf isKnown showAll fuel (vpdGetValue buf (p + 1)).2.1).endPos + 2)).endPos
            maxRead := max p (max (vpdGetValue buf (p + 1)).2.2
              (max (vpdInner buf isKnown showAll fuel (vpdGetValue buf (p + 1)).2.1).maxRead
                (vpdOuter buf isKnown showAll pend fuel
                  ((vpdInner buf isKnown showAll fuel (vpdGetValue buf (p + 1)).2.1).endPos + 2)).maxRead)) }
        else
          { ok := false
            lines := (vpdGetValue buf (p + 1)).1 ::
              (vpdInner buf isKnown showAll fuel (vpdGetValue buf (p + 1)).2.1).lines
            endPos := (vpdInner buf isKnown showAll fuel (vpdGetValue buf (p + 1)).2.1).endPos
            maxRead := max p (max (vpdGetValue buf (p + 1)).2.2
              (vpdInner buf isKnown showAll fuel (vpdGetValue buf (p + 1)).2.1).maxRead) }
      else if buf p = 0 then { ok := true, lines := [], endPos := p, maxRead := p }
      else
        { ok := (vpdOuter buf isKnown showAll pend fuel p).ok
          lines := (vpdOuter buf isKnown showAll pend fuel p).lines
          endPos := (vpdOuter buf isKnown showAll pend fuel p).endPos
          maxRead := max p (vpdOuter buf isKnown showAll pend fuel p).maxRead }
    else { ok := true, lines := [], endPos := p, maxRead := p }

/-- Run `dump_vpd` on one payload: the byte buffer is the payload, reads beyond
it return 0, and its declared end is the payload length. -/
def vpdDecode (payload : List ℕ) (isKnown : ℕ → ℕ → Bool) (showAll : Bool)
    (fuel : ℕ) : VpdRes :=
  vpdOuter (fun i => payload.getD i 0) isKnown showAll payload.length fuel 0

/-- The claim's 5-byte VPD payload `0x82, 0x02, 'I', 'D', 0x79`. -/
def vpd5 : List ℕ := [0x82, 0x02, 0x49, 0x44, 0x79]

/-- The same content with the identification string's length encoded in the
two bytes the code actually reads. -/
def vpd6 : List ℕ := [0x82, 0x02, 0x00, 0x49, 0x44, 0x79]

/-- A payload whose leading byte is neither 0x82 nor 0. -/
def vpdBad : List ℕ := [0x90]

/-- Counterexample for C5: on the claimed 5-byte input the decoder takes
the two bytes after the 0x82 tag as a 16-bit length (0x4902), so it reads
a byte at index ≥ 5, beyond the declared 5-byte end. -/
theorem vpd_reads_past_end_on_claimed_input :
    5 ≤ (vpdDecode vpd5 (fun _ _ => false) false 1).maxRead := by decide

/-- C5 (amended): the identification string carries a two-byte length; on
`0x82, 0x02, 0x00, 'I', 'D', 0x79` the decoder terminates at the end tag
and emits exactly one line, "ID" — but it still examines bytes at and past
the declared end (the loop condition after skipping the end tag and the
checksum byte), so only termination and output are guaranteed, not absence
of reads past the end. -/
theorem vpd_two_byte_length_decodes_id :
    (vpdDecode vpd6 (fun _ _ => false) false 3).ok = true ∧
    (vpdDecode vpd6 (fun _ _ => false) false 3).lines = [[0x49, 0x44]] ∧
    (vpdDecode vpd6 (fun _ _ => false) false 3).maxRead = 7 := by
  refine ⟨by decide, by decide, by decide⟩

/-- C6: on a payload whose leading byte is neither 0x82 nor 0, the outer
loop of `dump_vpd` never advances `p` and never terminates — for every
fuel bound it is still running (the "unknown descriptor" warning after the
loop is unreachable); no CorruptFormat report stops the decode. -/
theorem vpd_unknown_byte_never_terminates :
    ∀ fuel, (vpdDecode vpdBad (fun _ _ => false) false fuel).ok = false := by
  intro fuel
  induction fuel with
  | zero => rfl
  | succ n ih =>
    unfold vpdDecode at ih ⊢
    rw [vpdOuter]
    rw [if_pos (by constructor <;> decide)]
    rw [if_neg (by decide), if_neg (by decide)]
    exact ih

/-- Modelled from the spec (§4.5): the fixed maximum CPU count bound
(`MAX_CPUS` of `nvram.h`, which is not under src/).  No theorem below
depends on the numeric value. -/
def MAX_CPUS : ℕ := 128

/-- Offset resolution of `dump_errlog` (e.g. nvram.c lines 963-964): the
stored 16-bit word `v` at header slot `i` encodes a self-relative offset
`v/2 + 1`; the target word index is `v/2 + 1 + i`, and it is taken only
when it is below `pmax`, otherwise the block pointer is null (`none`). -/
def resolveOff (v i pmax : ℕ) : Option ℕ :=
  if v / 2 + 1 + i < pmax then some (v / 2 + 1 + i) else none

/-- The machine word address (in 16-bit units) that a block pointer holds:
NULL is address 0; a real pointer is the partition payload's base word
address plus the word index.  `dump_errlog` subtracts such raw pointers to
compute dump lengths. -/
def addrW (base : ℕ) : Option ℕ → Int
  | none => 0
  | some k => (base : Int) + k

/-- Result of `dump_errlog` on one partition payload. -/
structure ErrlogRes where
  corrupt : Bool
  checkstops : ℕ
  sysRegs : Option ℕ
  numCpus : ℕ
  cpuRegs : List (Option ℕ)
  memctrl : Option ℕ
  ioctrl : Option ℕ
  sysDumped : Bool
  cpuDumped : List Bool
  deriving DecidableEq

/-- The boundary array `cpu_regs[0..num_cpus]` of `dump_errlog`: the CPU
block pointers, with `cpu_regs[num_cpus] = ioctrl_data` appended as the
artificial final boundary (line 1016). -/
def errBoundary (cpuR : List (Option ℕ)) (io : Option ℕ) (nc c : ℕ) : Option ℕ :=
  if c < nc then cpuR.getD c none else io

/-- The function `dump_errlog` (nvram.c lines 920-1031) over the partition's payload
words `ws` (their 16-bit big-endian values, `ws.length = p_max`) and the
payload's base word address `base`.  Fails CorruptFormat when fewer than 4
words are present.  Resolves the system-register, per-CPU (up to
`MAX_CPUS`), memory-controller and I/O-controller offsets.  The
system-register block is dumped only if its pointer is non-null and there
is at least one CPU; a CPU block's raw dump is issued whenever the pointer
difference to the next boundary is below the 4096 sanity cap — absence is
not tested there. -/
def dumpErrlog (ws : List ℕ) (base : ℕ) : ErrlogRes :=
  if ws.length < 4 then
    { corrupt := true, checkstops := 0, sysRegs := none, numCpus := 0, cpuRegs := [],
      memctrl := none, ioctrl := none, sysDumped := false, cpuDumped := [] }
  else
    { corrupt := false
      checkstops := ws.getD 0 0 / 256
      sysRegs := resolveOff (ws.getD 1 0) 1 ws.length
      numCpus := ws.getD 2 0
      cpuRegs := (List.range (min (ws.getD 2 0) MAX_CPUS)).map
        (fun c => resolveOff (ws.getD (3 + c) 0) (3 + c) ws.length)
      memctrl := resolveOff (ws.getD (4 + ws.getD 2 0) 0) (4 + ws.getD 2 0) ws.length
      ioctrl := resolveOff (ws.getD (6 + ws.getD 2 0) 0) (6 + ws.getD 2 0) ws.length
      sysDumped := (resolveOff (ws.getD 1 0) 1 ws.length).isSome &&
        decide (0 < min (ws.getD 2 0) MAX_CPUS)
      cpuDumped := (List.range (min (ws.getD 2 0) MAX_CPUS)).map (fun c =>
        decide (addrW base (errBoundary
            ((List.range (min (ws.getD 2 0) MAX_CPUS)).map
              (fun k => resolveOff (ws.getD (3 + k) 0) (3 + k) ws.length))
            (resolveOff (ws.getD (6 + ws.getD 2 0) 0) (6 + ws.getD 2 0) ws.length)
            (min (ws.getD 2 0) MAX_CPUS) (c + 1)) -
          addrW base (errBoundary
            ((List.range (min (ws.getD 2 0) MAX_CPUS)).map
              (fun k => resolveOff (ws.getD (3 + k) 0) (3 + k) ws.length))
            (resolveOff (ws.getD (6 + ws.getD 2 0) 0) (6 + ws.getD 2 0) ws.length)
            (min (ws.getD 2 0) MAX_CPUS) c) < 4096)) }

/-- Resolution is null exactly when the target lands at or past the
partition's word span. -/
theorem resolveOff_none_iff (v i pmax : ℕ) :
    resolveOff v i pmax = none ↔ pmax ≤ v / 2 + 1 + i := by
  unfold resolveOff
  split
  · simp
    omega
  · simp
    omega

/-- C9 (amended): for every error-log payload of at least 4 words, each
self-relative offset of the header (system registers, each stored CPU slot
up to `MAX_CPUS`, memory controller, I/O controller) yields a null pointer
exactly when it resolves at or beyond the partition's word span, and the
system-register block is not dumped when its pointer is null.  (A null CPU
block pointer, by contrast, does not prevent its dump: see the
counterexample.) -/
theorem errlog_offsets_clamped (ws : List ℕ) (base : ℕ) (hlen : 4 ≤ ws.length) :
    ((dumpErrlog ws base).sysRegs = none ↔ ws.length ≤ ws.getD 1 0 / 2 + 1 + 1) ∧
    (∀ c, c < min (ws.getD 2 0) MAX_CPUS →
      ((dumpErrlog ws base).cpuRegs.getD c none = none ↔
        ws.length ≤ ws.getD (3 + c) 0 / 2 + 1 + (3 + c))) ∧
    ((dumpErrlog ws base).memctrl = none ↔
      ws.length ≤ ws.getD (4 + ws.getD 2 0) 0 / 2 + 1 + (4 + ws.getD 2 0)) ∧
    ((dumpErrlog ws base).ioctrl = none ↔
      ws.length ≤ ws.getD (6 + ws.getD 2 0) 0 / 2 + 1 + (6 + ws.getD 2 0)) ∧
    ((dumpErrlog ws base).sysDumped = true → (dumpErrlog ws base).sysRegs ≠ none) := by
  have hne : ¬ ws.length < 4 := by omega
  unfold dumpErrlog
  rw [if_neg hne]
  refine ⟨resolveOff_none_iff _ _ _, ?_, resolveOff_none_iff _ _ _,
    resolveOff_none_iff _ _ _, ?_⟩
  · intro c hc
    have hc2 : c < ((List.range (min (ws.getD 2 0) MAX_CPUS)).map
        (fun k => resolveOff (ws.getD (3 + k) 0) (3 + k) ws.length)).length := by
      simpa using hc
    rw [List.getD_eq_getElem _ _ hc2]
    simp only [List.getElem_map, List.getElem_range]
    exact resolveOff_none_iff _ _ _
  · intro hd
    simp only [Bool.and_eq_true, Option.isSome_iff_ne_none] at hd
    exact hd.1

/-- Payload for the C9 counterexample: 16 words; one CPU; the CPU 0 offset
(slot 3) resolves out of range, so its pointer is null; the I/O-controller
offset (slot 7) resolves to word 8, giving the null CPU block a small
positive "length". -/
def errWs9 : List ℕ := [0, 65000, 1, 65000, 0, 0, 0, 0, 0, 0, 0, 0, 0, 0, 0, 0]

/-- Counterexample for C9: with the payload `errWs9` and payload base word
address 1, CPU 0's block pointer is null (its offset resolved out of
range), yet its raw dump is still issued — the guard `len < 4096` is
computed from the raw pointer values (here `len = 9`) and never checks
absence.  So "an absent block is not dumped" fails for CPU blocks. -/
theorem errlog_absent_cpu_block_still_dumped :
    (dumpErrlog errWs9 1).cpuRegs.getD 0 none = none ∧
    (dumpErrlog errWs9 1).cpuDumped.getD 0 false = true := by
  refine ⟨by decide, by decide⟩

/-- Witness for C9 (amended) at `errWs9` with base 1. -/
theorem errlog_offsets_clamped_witness :
    (4 ≤ errWs9.length) ∧
    (((dumpErrlog errWs9 1).sysRegs = none ↔ errWs9.length ≤ errWs9.getD 1 0 / 2 + 1 + 1) ∧
     (∀ c, c < min (errWs9.getD 2 0) MAX_CPUS →
       ((dumpErrlog errWs9 1).cpuRegs.getD c none = none ↔
         errWs9.length ≤ errWs9.getD (3 + c) 0 / 2 + 1 + (3 + c))) ∧
     ((dumpErrlog errWs9 1).memctrl = none ↔
       errWs9.length ≤ errWs9.getD (4 + errWs9.getD 2 0) 0 / 2 + 1 + (4 + errWs9.getD 2 0)) ∧
     ((dumpErrlog errWs9 1).ioctrl = none ↔
       errWs9.length ≤ errWs9.getD (6 + errWs9.getD 2 0) 0 / 2 + 1 + (6 + errWs9.getD 2 0)) ∧
     ((dumpErrlog errWs9 1).sysDumped = true → (dumpErrlog errWs9 1).sysRegs ≠ none)) :=
  ⟨by decide, errlog_offsets_clamped errWs9 1 (by decide)⟩

/-- A nonzero byte read means the index is inside the buffer. -/
theorem lt_length_of_cByte_ne (data : List ℕ) (o : ℕ) (h : cByte data o ≠ 0) :
    o < data.length := by
  by_contra hc
  exact h (List.getD_eq_default _ _ (Nat.le_of_not_lt hc))

/-- The NUL-terminated record starting at index `o` of `data`. -/
def recordAt (data : List ℕ) (o : ℕ) : List ℕ :=
  (data.drop o).takeWhile (fun b => b != 0)

/-- The search loop of `update_of_config_var` (nvram.c lines 1373-1380):
walk the records from offset `o`; return the offset of the first record
whose first `nlen` bytes `strncmp`-match the assignment. -/
def findVar (data cv : List ℕ) (nlen : ℕ) (o : ℕ) : Option ℕ :=
  if h : cByte data o = 0 then none
  else if strncmpAtEq data cv o 0 nlen then some o
  else findVar data cv nlen (o + strlenAt data o + 1)
termination_by data.length - o
decreasing_by
  have := lt_length_of_cByte_ne data o h
  omega

/-- The tail scan of `update_of_config_var` (lines 1417-1419): advance over
records until the terminating empty record; returns the offset of that
final NUL. -/
def scanEnd (data : List ℕ) (o : ℕ) : ℕ :=
  if h : cByte data o = 0 then o
  else scanEnd data (o + strlenAt data o + 1)
termination_by data.length - o
decreasing_by
  have := lt_length_of_cByte_ne data o h
  omega

/-- The records stored from offset `o` up to the terminating empty
record. -/
def recordsAt (data : List ℕ) (o : ℕ) : List (List ℕ) :=
  if h : cByte data o = 0 then []
  else recordAt data o :: recordsAt data (o + strlenAt data o + 1)
termination_by data.length - o
decreasing_by
  have := lt_length_of_cByte_ne data o h
  omega

/-- The name portion of a record: the text before the first `=` (byte
61). -/
def namePortion (r : List ℕ) : List ℕ := r.takeWhile (fun b => b != 61)

/-- The scan `scanEnd` stops on a NUL byte. -/
theorem cByte_scanEnd_eq_zero (data : List ℕ) :
    ∀ (n o : ℕ), data.length - o ≤ n → cByte data (scanEnd data o) = 0 := by
  intro n
  induction n with
  | zero =>
    intro o ho
    have hz : cByte data o = 0 := by
      unfold cByte
      exact List.getD_eq_default _ _ (by omega)
    rw [scanEnd, dif_pos hz]
    exact hz
  | succ m ih =>
    intro o ho
    by_cases hz : cByte data o = 0
    · rw [scanEnd, dif_pos hz]
      exact hz
    · rw [scanEnd, dif_neg hz]
      have hlt := lt_length_of_cByte_ne data o hz
      exact ih (o + strlenAt data o + 1) (by omega)

/-- The error class of `update_of_config_var`'s failure paths. -/
inductive UpdErr
  | noPartition
  | noVar
  | insufficientSpace
  | corruptPart
  | seekFail
  deriving DecidableEq

/-- One in-memory partition: its header and the bytes after the 16-byte
header (`length * 16 - 16` data bytes). -/
structure Part where
  hdr : PHeader
  data : List ℕ
  deriving DecidableEq

/-- Placeholder partition (the C code never reads past a valid index; the
theorems pin the index with a lookup hypothesis). -/
def dummyPart : Part :=
  { hdr := { signature := 0, chksum := 0, plen := 0, name := [] }, data := [] }

/-- Outcome of `update_of_config_var`: its return code, the (unchanged)
in-memory partition table, the resulting backing store, the error class of
a failure path, whether a write to the store was issued, and whether a
short write drew the error message of lines 1453-1457. -/
structure UpdRes where
  rc : Int
  parts : List Part
  disk : List ℕ
  err : Option UpdErr
  wrote : Bool
  shortWriteReported : Bool
  deriving DecidableEq

/-- Overwrite `bytes.length` bytes of `disk` at byte position `pos`. -/
def writeAt (disk : List ℕ) (pos : ℕ) (bytes : List ℕ) : List ℕ :=
  disk.take pos ++ bytes ++ disk.drop (pos + bytes.length)

/-- The function `nvram_find_fd_partition` (nvram.c lines 642-691): sequentially read
16-byte headers from the device, compare the 12-byte name field to `pname`,
and skip `length * 16 - 16` payload bytes on a mismatch; EOF or a short
read fails.  Fuel-indexed: a zero-length header on the device makes the C
loop spin in place. -/
def findFdPartition (disk : List ℕ) (pname : List ℕ) : ℕ → ℕ → Option ℕ
  | 0, _ => none
  | fuel + 1, pos =>
    if disk.length ≤ pos then none
    else if disk.length < pos + 16 then none
    else if strncmpAtEq (readHeader disk pos).name pname 0 0 12 then some pos
    else findFdPartition disk pname fuel (pos + (readHeader disk pos).plen * 16)

/-- The replacement partition image `new_part` built by
`update_of_config_var` (lines 1390-1443): the header bytes and the records
before the match verbatim, the new assignment plus its NUL, the retained
tail through the terminating empty record, zero fill to `length * 16`, and
the recomputed checksum stored at byte 1 (the checksum function does not
read the checksum byte, so it is the old header's computed checksum). -/
def newPartImage (parts : List Part) (cv : List ℕ) (pi o : ℕ) : List ℕ :=
  let part := parts.getD pi dummyPart
  let o2 := o + strlenAt part.data o + 1
  let tl := scanEnd part.data o2 + 1 - o2
  ((encodeHeader part.hdr ++ part.data).take (16 + o) ++ cv ++ [0] ++
      (part.data.drop o2).take tl ++
      List.replicate (part.hdr.plen * 16 - (16 + o + cv.length + 1 + tl)) 0).set 1
    (hdrChecksum part.hdr)

/-- The function `update_of_config_var` (nvram.c lines 1340-1461).  Inputs: the parsed
in-memory partition table, the assignment `cv` (`name=value`, no interior
NUL, containing `=` (byte 61)), the partition name, the backing store
`disk`, fuel for the device-side partition scan, and `written`, the byte
count the final positioned `write` transfers (`written = length * 16` is a
complete write).  Every failure path returns before any write, with the
table and store unchanged; after the write the return code is 0 even if
`written` fell short (the discrepancy is only reported). -/
def updateVar (parts : List Part) (cv pname disk : List ℕ) (fdFuel written : ℕ) : UpdRes :=
  match findPartIdx (parts.map Part.hdr) 0 (some pname) none with
  | none =>
    { rc := -1, parts := parts, disk := disk, err := some .noPartition,
      wrote := false, shortWriteReported := false }
  | some pi =>
    match findVar (parts.getD pi dummyPart).data cv
        ((cv.takeWhile (fun b => b != 61)).length + 1) 0 with
    | none =>
      { rc := -1, parts := parts, disk := disk, err := some .noVar,
        wrote := false, shortWriteReported := false }
    | some o =>
      if (parts.getD pi dummyPart).hdr.plen * 16 ≤ 16 + o + cv.length + 1 then
        { rc := -1, parts := parts, disk := disk, err := some .insufficientSpace,
          wrote := false, shortWriteReported := false }
      else
        if cByte (parts.getD pi dummyPart).data
              (scanEnd (parts.getD pi dummyPart).data
                (o + strlenAt (parts.getD pi dummyPart).data o + 1) - 1) != 0 &&
            cByte (parts.getD pi dummyPart).data
              (scanEnd (parts.getD pi dummyPart).data
                (o + strlenAt (parts.getD pi dummyPart).data o + 1)) != 0 then
          { rc := -1, parts := parts, disk := disk, err := some .corruptPart,
            wrote := false, shortWriteReported := false }
        else
          if (parts.getD pi dummyPart).hdr.plen * 16 < 16 + o + cv.length + 1 +
              (scanEnd (parts.getD pi dummyPart).data
                  (o + strlenAt (parts.getD pi dummyPart).data o + 1) + 1 -
                (o + strlenAt (parts.getD pi dummyPart).data o + 1)) then
            { rc := -1, parts := parts, disk := disk, err := some .insufficientSpace,
              wrote := false, shortWriteReported := false }
          else
            match findFdPartition disk (parts.getD pi dummyPart).hdr.name fdFuel 0 with
            | none =>
              { rc := -1, parts := parts, disk := disk, err := some .seekFail,
                wrote := false, shortWriteReported := false }
            | some pos =>
              { rc := 0, parts := parts
                disk := writeAt disk pos ((newPartImage parts cv pi o).take written)
                err := none, wrote := true,
                shortWriteReported := written != (parts.getD pi dummyPart).hdr.plen * 16 }

/-- The retained tail of an update: the bytes from the record after the
matched one through the terminating empty record (what the C copies with
`memcpy(new_part_offset, tmp_offset, data_offset - tmp_offset)`). -/
def partTailLen (data : List ℕ) (o : ℕ) : ℕ :=
  scanEnd data (o + strlenAt data o + 1) + 1 - (o + strlenAt data o + 1)

/-- C2: when the new assignment plus the retained tail would not fit in the
partition's fixed byte capacity (`length * 16`), `update_of_config_var`
fails with InsufficientSpace before any write: no write is issued and both
the in-memory table and the backing store are returned unchanged. -/
theorem update_insufficient_space_untouched
    (parts : List Part) (cv pname disk : List ℕ) (fdFuel written pi o : ℕ)
    (hfind : findPartIdx (parts.map Part.hdr) 0 (some pname) none = some pi)
    (hvar : findVar (parts.getD pi dummyPart).data cv
        ((cv.takeWhile (fun b => b != 61)).length + 1) 0 = some o)
    (hbig : (parts.getD pi dummyPart).hdr.plen * 16 <
        cv.length + 1 + partTailLen (parts.getD pi dummyPart).data o) :
    updateVar parts cv pname disk fdFuel written =
      { rc := -1, parts := parts, disk := disk, err := some .insufficientSpace,
        wrote := false, shortWriteReported := false } := by
  unfold partTailLen at hbig
  unfold updateVar
  simp only [hfind, hvar]
  by_cases h1 : (parts.getD pi dummyPart).hdr.plen * 16 ≤ 16 + o + cv.length + 1
  · rw [if_pos h1]
  · rw [if_neg h1]
    have hz : cByte (parts.getD pi dummyPart).data
        (scanEnd (parts.getD pi dummyPart).data
          (o + strlenAt (parts.getD pi dummyPart).data o + 1)) = 0 :=
      cByte_scanEnd_eq_zero _ _ _ (Nat.sub_le _ _)
    rw [if_neg (by rw [hz]; simp), if_pos (by omega)]

/-- On the write path (partition found, variable found, both space checks
pass, device-side lookup succeeds) `update_of_config_var` issues its single
positioned write of the first `written` bytes of the replacement image and
returns 0, flagging the discrepancy exactly when `written` differs from
`length * 16`. -/
theorem updateVar_write_eq
    (parts : List Part) (cv pname disk : List ℕ) (fdFuel written pi o pos : ℕ)
    (hfind : findPartIdx (parts.map Part.hdr) 0 (some pname) none = some pi)
    (hvar : findVar (parts.getD pi dummyPart).data cv
        ((cv.takeWhile (fun b => b != 61)).length + 1) 0 = some o)
    (hfit1 : 16 + o + cv.length + 1 < (parts.getD pi dummyPart).hdr.plen * 16)
    (hfit2 : 16 + o + cv.length + 1 + partTailLen (parts.getD pi dummyPart).data o ≤
        (parts.getD pi dummyPart).hdr.plen * 16)
    (hfd : findFdPartition disk (parts.getD pi dummyPart).hdr.name fdFuel 0 = some pos) :
    updateVar parts cv pname disk fdFuel written =
      { rc := 0, parts := parts
        disk := writeAt disk pos ((newPartImage parts cv pi o).take written)
        err := none, wrote := true,
        shortWriteReported := written != (parts.getD pi dummyPart).hdr.plen * 16 } := by
  unfold partTailLen at hfit2
  have hz : cByte (parts.getD pi dummyPart).data
      (scanEnd (parts.getD pi dummyPart).data
        (o + strlenAt (parts.getD pi dummyPart).data o + 1)) = 0 :=
    cByte_scanEnd_eq_zero _ _ _ (Nat.sub_le _ _)
  unfold updateVar
  simp only [hfind, hvar]
  rw [if_neg (by omega), if_neg (by rw [hz]; simp), if_neg (by omega)]
  simp only [hfd]

/-- C10: once `update_of_config_var` reaches its single positioned write,
a short write (`written < length * 16`) is reported as an error message but
the function still returns 0, the same return code as a complete write, so
the caller cannot distinguish the two from the result value. -/
theorem update_short_write_still_succeeds
    (parts : List Part) (cv pname disk : List ℕ) (fdFuel written pi o pos : ℕ)
    (hfind : findPartIdx (parts.map Part.hdr) 0 (some pname) none = some pi)
    (hvar : findVar (parts.getD pi dummyPart).data cv
        ((cv.takeWhile (fun b => b != 61)).length + 1) 0 = some o)
    (hfit1 : 16 + o + cv.length + 1 < (parts.getD pi dummyPart).hdr.plen * 16)
    (hfit2 : 16 + o + cv.length + 1 + partTailLen (parts.getD pi dummyPart).data o ≤
        (parts.getD pi dummyPart).hdr.plen * 16)
    (hfd : findFdPartition disk (parts.getD pi dummyPart).hdr.name fdFuel 0 = some pos)
    (hshort : written < (parts.getD pi dummyPart).hdr.plen * 16) :
    (updateVar parts cv pname disk fdFuel written).rc = 0 ∧
    (updateVar parts cv pname disk fdFuel written).wrote = true ∧
    (updateVar parts cv pname disk fdFuel written).shortWriteReported = true ∧
    (updateVar parts cv pname disk fdFuel
      ((parts.getD pi dummyPart).hdr.plen * 16)).rc = 0 := by
  have he := updateVar_write_eq parts cv pname disk fdFuel written pi o pos
    hfind hvar hfit1 hfit2 hfd
  have hf := updateVar_write_eq parts cv pname disk fdFuel
    ((parts.getD pi dummyPart).hdr.plen * 16) pi o pos hfind hvar hfit1 hfit2 hfd
  refine ⟨by rw [he], by rw [he], ?_, by rw [hf]⟩
  rw [he]
  simp only [bne_iff_ne]
  omega

/-- The demo partition for the update claims: one partition named "common",
2 blocks (32 bytes: 16-byte header, 16 data bytes) holding the single
record "a=1" followed by the terminating empty record. -/
def updHdr : PHeader := { signature := 0x70, chksum := 0x71, plen := 2, name := common12 }

/-- Sixteen data bytes: "a=1", NUL, empty record, zero padding. -/
def updData : List ℕ := [97, 61, 49, 0, 0, 0, 0, 0, 0, 0, 0, 0, 0, 0, 0, 0]

/-- The demo in-memory table for the update claims. -/
def updParts : List Part := [{ hdr := updHdr, data := updData }]

/-- A backing store holding exactly the demo partition. -/
def updDisk : List ℕ := encodeHeader updHdr ++ updData

/-- An oversized assignment "a=777...7" (30 value digits, 32 bytes): with
the retained tail it exceeds the 32-byte capacity. -/
def bigAssign : List ℕ := [97, 61] ++ List.replicate 30 55

/-- A small assignment "a=2". -/
def smallAssign : List ℕ := [97, 61, 50]

/-- The search `findVar` finds "a=..." at offset 0 of the demo data. -/
theorem findVar_updData_bigAssign :
    findVar updData bigAssign ((bigAssign.takeWhile (fun b => b != 61)).length + 1) 0
      = some 0 := by
  rw [findVar, dif_neg (by decide), if_pos (by decide)]

/-- The search `findVar` also finds "a=2" at offset 0 of the demo data. -/
theorem findVar_updData_smallAssign :
    findVar updData smallAssign ((smallAssign.takeWhile (fun b => b != 61)).length + 1) 0
      = some 0 := by
  rw [findVar, dif_neg (by decide), if_pos (by decide)]

/-- The tail scan of the demo data stops at offset 4 (the empty record). -/
theorem scanEnd_updData : scanEnd updData 4 = 4 := by
  rw [scanEnd, dif_pos (by decide)]

/-- The retained tail of the demo data after the matched record is the one
byte of the terminating empty record. -/
theorem partTailLen_updData : partTailLen updData 0 = 1 := by
  unfold partTailLen
  rw [show strlenAt updData 0 = 3 from by decide]
  rw [scanEnd_updData]

/-- Witness for C2: updating "a=1" to the 32-byte assignment in the 32-byte
partition fails InsufficientSpace with nothing written. -/
theorem update_insufficient_space_untouched_witness :
    (findPartIdx (updParts.map Part.hdr) 0 (some common6) none = some 0 ∧
     findVar (updParts.getD 0 dummyPart).data bigAssign
       ((bigAssign.takeWhile (fun b => b != 61)).length + 1) 0 = some 0 ∧
     (updParts.getD 0 dummyPart).hdr.plen * 16 <
       bigAssign.length + 1 + partTailLen (updParts.getD 0 dummyPart).data 0) ∧
    updateVar updParts bigAssign common6 updDisk 1 0 =
      { rc := -1, parts := updParts, disk := updDisk, err := some .insufficientSpace,
        wrote := false, shortWriteReported := false } := by
  have h1 : findPartIdx (updParts.map Part.hdr) 0 (some common6) none = some 0 := by decide
  have h2 : findVar (updParts.getD 0 dummyPart).data bigAssign
      ((bigAssign.takeWhile (fun b => b != 61)).length + 1) 0 = some 0 :=
    findVar_updData_bigAssign
  have h3 : (updParts.getD 0 dummyPart).hdr.plen * 16 <
      bigAssign.length + 1 + partTailLen (updParts.getD 0 dummyPart).data 0 := by
    have ht : partTailLen (updParts.getD 0 dummyPart).data 0 = 1 := partTailLen_updData
    rw [ht]
    decide
  exact ⟨⟨h1, h2, h3⟩,
    update_insufficient_space_untouched updParts bigAssign common6 updDisk 1 0 0 0 h1 h2 h3⟩

/-- Witness for C10: a 5-byte short write of the 32-byte partition still
returns 0 while reporting the discrepancy. -/
theorem update_short_write_still_succeeds_witness :
    (findPartIdx (updParts.map Part.hdr) 0 (some common6) none = some 0 ∧
     findVar (updParts.getD 0 dummyPart).data smallAssign
       ((smallAssign.takeWhile (fun b => b != 61)).length + 1) 0 = some 0 ∧
     16 + 0 + smallAssign.length + 1 < (updParts.getD 0 dummyPart).hdr.plen * 16 ∧
     16 + 0 + smallAssign.length + 1 + partTailLen (updParts.getD 0 dummyPart).data 0 ≤
       (updParts.getD 0 dummyPart).hdr.plen * 16 ∧
     findFdPartition updDisk (updParts.getD 0 dummyPart).hdr.name 1 0 = some 0 ∧
     5 < (updParts.getD 0 dummyPart).hdr.plen * 16) ∧
    ((updateVar updParts smallAssign common6 updDisk 1 5).rc = 0 ∧
     (updateVar updParts smallAssign common6 updDisk 1 5).wrote = true ∧
     (updateVar updParts smallAssign common6 updDisk 1 5).shortWriteReported = true ∧
     (updateVar updParts smallAssign common6 updDisk 1
       ((updParts.getD 0 dummyPart).hdr.plen * 16)).rc = 0) := by
  have h1 : findPartIdx (updParts.map Part.hdr) 0 (some common6) none = some 0 := by decide
  have h2 : findVar (updParts.getD 0 dummyPart).data smallAssign
      ((smallAssign.takeWhile (fun b => b != 61)).length + 1) 0 = some 0 :=
    findVar_updData_smallAssign
  have ht : partTailLen (updParts.getD 0 dummyPart).data 0 = 1 := partTailLen_updData
  have h4 : 16 + 0 + smallAssign.length + 1 + partTailLen (updParts.getD 0 dummyPart).data 0 ≤
      (updParts.getD 0 dummyPart).hdr.plen * 16 := by
    rw [ht]
    decide
  have h5 : findFdPartition updDisk (updParts.getD 0 dummyPart).hdr.name 1 0 = some 0 := by
    decide
  exact ⟨⟨h1, h2, by decide, h4, h5, by decide⟩,
    update_short_write_still_succeeds updParts smallAssign common6 updDisk 1 5 0 0 0
      h1 h2 (by decide) h4 h5 (by decide)⟩

/-- Within a `takeWhile`, reads agree with the original list and satisfy
the predicate. -/
theorem takeWhile_getD (p : ℕ → Bool) :
    ∀ (l : List ℕ) (j : ℕ), j < (l.takeWhile p).length →
      (l.takeWhile p).getD j 0 = l.getD j 0 ∧ p (l.getD j 0) = true := by
  intro l
  induction l with
  | nil =>
    intro j hj
    simp at hj
  | cons a t ih =>
    intro j hj
    by_cases hpa : p a = true
    · rw [List.takeWhile_cons_of_pos hpa] at hj ⊢
      cases j with
      | zero => exact ⟨rfl, hpa⟩
      | succ i =>
        simp only [List.getD_cons_succ]
        exact ih i (by simpa using hj)
    · rw [List.takeWhile_cons_of_neg (by simpa using hpa)] at hj
      simp at hj

/-- An in-range `getD` read is a member of the list. -/
theorem getD_mem (l : List ℕ) (j : ℕ) (hj : j < l.length) : l.getD j 0 ∈ l := by
  rw [List.getD_eq_getElem _ _ hj]
  exact List.getElem_mem hj

/-- The name portion of a string containing `=` is shorter than the
string. -/
theorem namePortion_length_lt (cv : List ℕ) (h61 : 61 ∈ cv) :
    (cv.takeWhile (fun b => b != 61)).length < cv.length := by
  induction cv with
  | nil => cases h61
  | cons a t ih =>
    by_cases ha : a = 61
    · rw [List.takeWhile_cons_of_neg (by simp [ha])]
      simp
    · rw [List.takeWhile_cons_of_pos (by simp [ha])]
      have h61t : 61 ∈ t := by
        cases h61 with
        | head => exact absurd rfl ha
        | tail _ h => exact h
      simpa using ih h61t

/-- The byte right after the name portion is the `=` sign. -/
theorem getD_at_namePortion_length (cv : List ℕ) (h61 : 61 ∈ cv) :
    cv.getD (cv.takeWhile (fun b => b != 61)).length 0 = 61 := by
  induction cv with
  | nil => cases h61
  | cons a t ih =>
    by_cases ha : a = 61
    · rw [List.takeWhile_cons_of_neg (by simp [ha])]
      simpa using ha
    · rw [List.takeWhile_cons_of_pos (by simp [ha])]
      have h61t : 61 ∈ t := by
        cases h61 with
        | head => exact absurd rfl ha
        | tail _ h => exact h
      simpa using ih h61t

/-- When the reference bytes are nonzero, a successful `strncmp` means the
compared ranges agree byte for byte. -/
theorem strncmpAtEq_imp_eq (a b : List ℕ) :
    ∀ (n ai bi : ℕ), (∀ j, j < n → cByte b (bi + j) ≠ 0) →
      strncmpAtEq a b ai bi n = true →
      ∀ j, j < n → cByte a (ai + j) = cByte b (bi + j) := by
  intro n
  induction n with
  | zero =>
    intro ai bi _ _ j hj
    omega
  | succ m ih =>
    intro ai bi hnz hcmp j hj
    by_cases heq : cByte a ai = cByte b bi
    · cases j with
      | zero => simpa using heq
      | succ i =>
        have haz : ¬ cByte a ai = 0 := by
          rw [heq]
          have := hnz 0 (by omega)
          simpa using this
        rw [strncmpAtEq, if_neg (by simp [heq]), if_neg haz] at hcmp
        have hr := ih (ai + 1) (bi + 1) (fun k hk => by
          have := hnz (k + 1) (by omega)
          have e : bi + (k + 1) = bi + 1 + k := by omega
          rwa [e] at this) hcmp i (by omega)
        have e1 : ai + (i + 1) = ai + 1 + i := by omega
        have e2 : bi + (i + 1) = bi + 1 + i := by omega
        rw [e1, e2]
        exact hr
    · rw [strncmpAtEq, if_pos (by simpa using heq)] at hcmp
      cases hcmp

/-- Reading a nonempty tail: `drop` exposes the `getD` head byte. -/
theorem drop_cons_of_getD (data : List ℕ) (o : ℕ) (h : o < data.length) :
    data.drop o = data.getD o 0 :: data.drop (o + 1) := by
  rw [List.getD_eq_getElem _ _ h]
  exact List.drop_eq_getElem_cons h

/-- If the bytes at `o` spell out `nm` (nonzero, `=`-free) followed by an
`=` sign, then the record at `o` has name portion exactly `nm`. -/
theorem namePortion_recordAt (data : List ℕ) :
    ∀ (nm : List ℕ) (o : ℕ),
      (∀ j, j < nm.length → cByte data (o + j) = nm.getD j 0) →
      (∀ j, j < nm.length → nm.getD j 0 ≠ 0 ∧ nm.getD j 0 ≠ 61) →
      cByte data (o + nm.length) = 61 →
      namePortion (recordAt data o) = nm := by
  intro nm
  induction nm with
  | nil =>
    intro o _ _ h61
    rw [List.length_nil, Nat.add_zero] at h61
    have hlt : o < data.length := lt_length_of_cByte_ne data o (by rw [h61]; norm_num)
    unfold namePortion recordAt
    rw [drop_cons_of_getD data o hlt, show data.getD o 0 = 61 from h61]
    rw [List.takeWhile_cons_of_pos (by norm_num)]
    rw [List.takeWhile_cons_of_neg (by norm_num)]
  | cons a t ih =>
    intro o hbytes hprops h61
    have ha : cByte data o = a := by
      have := hbytes 0 (by simp)
      simpa using this
    have hap : a ≠ 0 ∧ a ≠ 61 := by
      have := hprops 0 (by simp)
      simpa using this
    have hlt : o < data.length := lt_length_of_cByte_ne data o (by rw [ha]; exact hap.1)
    have hrec : recordAt data o = a :: recordAt data (o + 1) := by
      unfold recordAt
      rw [drop_cons_of_getD data o hlt, show data.getD o 0 = a from ha]
      rw [List.takeWhile_cons_of_pos (by simp [hap.1])]
    have hnp : namePortion (a :: recordAt data (o + 1)) = a :: namePortion (recordAt data (o + 1)) := by
      unfold namePortion
      rw [List.takeWhile_cons_of_pos (by simp [hap.2])]
    rw [hrec, hnp, ih (o + 1) (fun j hj => by
        have := hbytes (j + 1) (by simpa using Nat.succ_lt_succ hj)
        have e : o + (j + 1) = o + 1 + j := by omega
        rw [e] at this
        simpa using this)
      (fun j hj => by
        have := hprops (j + 1) (by simpa using Nat.succ_lt_succ hj)
        simpa using this)
      (by
        have e : o + (a :: t).length = o + 1 + t.length := by
          simp
          omega
        rwa [e] at h61)]

/-- If `findVar` locates a match for the assignment, the partition holds a
record whose name portion equals the assignment's name portion. -/
theorem findVar_imp_record (data cv : List ℕ) (h61 : 61 ∈ cv) (h0 : ∀ b ∈ cv, b ≠ 0) :
    ∀ (n o m : ℕ), data.length - o ≤ n →
      findVar data cv ((cv.takeWhile (fun b => b != 61)).length + 1) o = some m →
      ∃ r ∈ recordsAt data o, namePortion r = namePortion cv := by
  have hnmlt := namePortion_length_lt cv h61
  have hnz : ∀ j, j < (cv.takeWhile (fun b => b != 61)).length + 1 → cByte cv (0 + j) ≠ 0 := by
    intro j hj
    have hjlt : j < cv.length := by omega
    have : cByte cv (0 + j) = cv.getD j 0 := by
      unfold cByte
      rw [Nat.zero_add]
    rw [this]
    exact h0 _ (getD_mem cv j hjlt)
  intro n
  induction n with
  | zero =>
    intro o m hle hfv
    have hz : cByte data o = 0 := List.getD_eq_default _ _ (by omega)
    rw [findVar, dif_pos hz] at hfv
    cases hfv
  | succ k ih =>
    intro o m hle hfv
    by_cases hz : cByte data o = 0
    · rw [findVar, dif_pos hz] at hfv
      cases hfv
    · have hlt := lt_length_of_cByte_ne data o hz
      have hrecs : recordsAt data o
          = recordAt data o :: recordsAt data (o + strlenAt data o + 1) := by
        rw [recordsAt, dif_neg hz]
      rw [findVar, dif_neg hz] at hfv
      by_cases hm : strncmpAtEq data cv o 0
          ((cv.takeWhile (fun b => b != 61)).length + 1) = true
      · refine ⟨recordAt data o, by rw [hrecs]; exact List.mem_cons_self _ _, ?_⟩
        have heq := strncmpAtEq_imp_eq data cv
          ((cv.takeWhile (fun b => b != 61)).length + 1) o 0 hnz hm
        show namePortion (recordAt data o) = cv.takeWhile (fun b => b != 61)
        apply namePortion_recordAt
        · intro j hj
          have hcvj := heq j (by omega)
          rw [Nat.zero_add] at hcvj
          have hgd := takeWhile_getD (fun b => b != 61) cv j hj
          rw [hcvj]
          exact hgd.1.symm
        · intro j hj
          have hgd := takeWhile_getD (fun b => b != 61) cv j hj
          rw [hgd.1]
          refine ⟨h0 _ (getD_mem cv j (by omega)), by simpa using hgd.2⟩
        · have hend := heq (cv.takeWhile (fun b => b != 61)).length (by omega)
          rw [Nat.zero_add] at hend
          rw [hend]
          exact getD_at_namePortion_length cv h61
      · rw [if_neg hm] at hfv
        obtain ⟨r, hr, hnp⟩ := ih (o + strlenAt data o + 1) m (by omega) hfv
        exact ⟨r, by rw [hrecs]; exact List.mem_cons_of_mem _ hr, hnp⟩

/-- C3: when the named partition exists but holds no record whose name
portion equals the assignment's name portion, `update_of_config_var` fails
NotFound without creating the variable: nothing is written and both the
in-memory table (and with it the partition's record set) and the backing
store are returned unchanged. -/
theorem update_missing_var_not_created
    (parts : List Part) (cv pname disk : List ℕ) (fdFuel written pi : ℕ)
    (hfind : findPartIdx (parts.map Part.hdr) 0 (some pname) none = some pi)
    (h61 : 61 ∈ cv) (h0 : ∀ b ∈ cv, b ≠ 0)
    (hnone : ∀ r ∈ recordsAt (parts.getD pi dummyPart).data 0,
      namePortion r ≠ namePortion cv) :
    updateVar parts cv pname disk fdFuel written =
      { rc := -1, parts := parts, disk := disk, err := some .noVar,
        wrote := false, shortWriteReported := false } := by
  have hfv : findVar (parts.getD pi dummyPart).data cv
      ((cv.takeWhile (fun b => b != 61)).length + 1) 0 = none := by
    cases hopt : findVar (parts.getD pi dummyPart).data cv
        ((cv.takeWhile (fun b => b != 61)).length + 1) 0 with
    | none => rfl
    | some m =>
      obtain ⟨r, hr, hnp⟩ := findVar_imp_record (parts.getD pi dummyPart).data cv h61 h0
        (parts.getD pi dummyPart).data.length 0 m (Nat.sub_le _ _) hopt
      exact absurd hnp (hnone r hr)
  unfold updateVar
  simp only [hfind, hfv]

/-- Demo data for C3: one record "b=1" then the terminating empty record. -/
def noVarData : List ℕ := [98, 61, 49, 0, 0, 0, 0, 0, 0, 0, 0, 0, 0, 0, 0, 0]

/-- Demo table for C3: one partition named "common" holding only "b=1". -/
def noVarParts : List Part := [{ hdr := updHdr, data := noVarData }]

/-- The record set of the C3 demo partition. -/
theorem recordsAt_noVarData : recordsAt noVarData 0 = [[98, 61, 49]] := by
  rw [recordsAt, dif_neg (by decide), show strlenAt noVarData 0 = 3 from by decide]
  rw [recordsAt, dif_pos (by decide)]
  decide

/-- Witness for C3: updating "a=2" in a partition holding only "b=1" fails
NotFound with nothing written. -/
theorem update_missing_var_not_created_witness :
    (findPartIdx (noVarParts.map Part.hdr) 0 (some common6) none = some 0 ∧
     61 ∈ smallAssign ∧ (∀ b ∈ smallAssign, b ≠ 0) ∧
     (∀ r ∈ recordsAt (noVarParts.getD 0 dummyPart).data 0,
       namePortion r ≠ namePortion smallAssign)) ∧
    updateVar noVarParts smallAssign common6 updDisk 1 0 =
      { rc := -1, parts := noVarParts, disk := updDisk, err := some .noVar,
        wrote := false, shortWriteReported := false } := by
  have h1 : findPartIdx (noVarParts.map Part.hdr) 0 (some common6) none = some 0 := by decide
  have h4 : ∀ r ∈ recordsAt (noVarParts.getD 0 dummyPart).data 0,
      namePortion r ≠ namePortion smallAssign := by
    have he : (noVarParts.getD 0 dummyPart).data = noVarData := rfl
    rw [he, recordsAt_noVarData]
    decide
  exact ⟨⟨h1, by decide, by decide, h4⟩,
    update_missing_var_not_created noVarParts smallAssign common6 updDisk 1 0 0
      h1 (by decide) (by decide) h4⟩

end Nvram
